import Mathlib

/-!
# Verification of the x360 homebrew INI creator (html parsing module)

Shallow embedding of `html_parser.py`: the title normalizer `clean_title`,
the URL directory extractor `get_dir_from_url` (with a model of
`urllib.parse.urlparse`'s path extraction and `unquote`), the row extractor
`parse_html_to_database` over an abstract table-row document model, and the
INI formatter `generate_ini_format`.

Python strings are modelled as Lean `String` / `List Char`.  Whitespace
(`str.strip`, regex `\s`) is modelled by `Char.isWhitespace` (space, tab,
CR, LF); Python's set is slightly larger (vertical tab, form feed, Unicode
spaces), which no statement below depends on.  Regex `\d` is modelled as
ASCII digits.
-/

set_option maxRecDepth 8192

namespace X360

/-- Model of Python `str.rfind` on a character: the index of the last
occurrence, `-1` if the character does not occur. -/
def rfind : List Char → Char → Int
  | [], _ => -1
  | c :: t, ch =>
    let r := rfind t ch
    if 0 ≤ r then r + 1
    else if c = ch then 0
    else -1

/-- Trailing-whitespace removal (right half of Python `str.strip`). -/
def dropTrailWS (cs : List Char) : List Char :=
  (cs.reverse.dropWhile Char.isWhitespace).reverse

/-- Model of Python `str.strip()` with no argument: remove leading and
trailing whitespace. -/
def pyStrip (cs : List Char) : List Char :=
  dropTrailWS (cs.dropWhile Char.isWhitespace)

/-- Python `str.strip()` on `String`, used wherever the source calls
`get_text(strip=True)` or `.strip()`. -/
def pyStripStr (s : String) : String :=
  String.mk (pyStrip s.toList)

/-- The constant `FORBIDDEN_CHARS = "!+"` from the source. -/
def FORBIDDEN_CHARS : List Char := ['!', '+']

/-- The character filter performed by `forbidden_regex.sub('', ...)`:
keep a character iff it is not forbidden. -/
def notForbidden (c : Char) : Bool :=
  !(FORBIDDEN_CHARS.contains c)

/-- Translation of `clean_title` from `html_parser.py`:
strip the extension after the last `.` when that dot has positive index,
delete the forbidden characters, strip surrounding whitespace. -/
def clean_title (title : String) : String :=
  let cs := title.toList
  let last_dot_index := rfind cs '.'
  let title_no_ext := if 0 < last_dot_index then cs.take last_dot_index.toNat else cs
  let cleaned := title_no_ext.filter notForbidden
  String.mk (pyStrip cleaned)

/-- Spec-side helper: walking a reversed list, return everything after the
first occurrence of `ch` (that is, everything before the last occurrence in
the original list, still reversed). -/
def beforeLastRev (ch : Char) : List Char → Option (List Char)
  | [] => none
  | c :: t => if c = ch then some t else beforeLastRev ch t

/-- Spec-side helper: the part of `cs` strictly before the last occurrence
of `ch`, or `none` when `ch` does not occur. -/
def spec_before_last (ch : Char) (cs : List Char) : Option (List Char) :=
  (beforeLastRev ch cs.reverse).map List.reverse

/-- Spec-side extension stripping, following the spec's words: strip
everything from the last `.` to the end, unless that `.` is the first
character; strip nothing when there is no `.`. -/
def spec_stripExt (cs : List Char) : List Char :=
  match spec_before_last '.' cs with
  | none => cs
  | some pre => if pre = [] then cs else pre

/-- Title normalization as described by the spec: strip the trailing
extension, remove every `!` and `+`, trim surrounding whitespace. -/
def spec_clean_title (title : String) : String :=
  String.mk (pyStrip ((spec_stripExt title.toList).filter notForbidden))

/-! ## Model of urllib.parse path extraction and percent decoding -/

/-- Characters allowed in a URL scheme after the first letter
(`scheme_chars` in urllib). -/
def isSchemeChar (c : Char) : Bool :=
  c.isAlphanum || c == '+' || c == '-' || c == '.'

/-- urlsplit's initial cleanup: strip surrounding C0-control-or-space
characters, then delete every tab, CR and LF. -/
def cleanUrl (cs : List Char) : List Char :=
  let stripped := ((cs.dropWhile (fun c => c.toNat ≤ 32)).reverse.dropWhile
    (fun c => c.toNat ≤ 32)).reverse
  stripped.filter (fun c => !(c == '\t' || c == '\r' || c == '\n'))

/-- urlsplit's scheme split: when the text before the first `:` is a valid
scheme, return it (lowercased) with the remainder; otherwise no scheme. -/
def splitScheme (cs : List Char) : List Char × List Char :=
  match cs.findIdx? (· == ':') with
  | none => ([], cs)
  | some i =>
    if 0 < i ∧ (cs.headD ' ').isAlpha ∧ (cs.take i).all isSchemeChar then
      ((cs.take i).map Char.toLower, cs.drop (i + 1))
    else
      ([], cs)

/-- urlsplit's netloc split: when the input starts with `//`, consume the
authority up to the next `/`, `?` or `#`; raise `Invalid IPv6 URL` (the
`ValueError` urlsplit raises) when the authority has mismatched square
brackets. -/
def splitNetloc (cs : List Char) : Except String (List Char) :=
  match cs with
  | '/' :: '/' :: rest =>
    let netloc := rest.takeWhile (fun c => !(c == '/' || c == '?' || c == '#'))
    if (netloc.contains '[' && !(netloc.contains ']'))
        || (netloc.contains ']' && !(netloc.contains '[')) then
      Except.error "Invalid IPv6 URL"
    else
      Except.ok (rest.drop netloc.length)
  | _ => Except.ok cs

/-- Schemes for which `urlparse` splits `;params` off the path
(`uses_params`, which contains the empty scheme). -/
def usesParams : List String :=
  ["", "ftp", "hdl", "prospero", "http", "imap", "https", "shttp", "rtsp",
   "rtspu", "sip", "sips", "mms", "sftp", "tel"]

/-- urlparse's `_splitparams` on the path: cut at the first `;` that occurs
at or after the last `/` (or anywhere when there is no `/`).  Only called
when the path contains a `;`, so the `none` branches are unreachable. -/
def splitParamsPath (p : List Char) : List Char :=
  if p.contains ';' then
    if p.contains '/' then
      match (p.drop (rfind p '/').toNat).findIdx? (· == ';') with
      | some m => p.take ((rfind p '/').toNat + m)
      | none => p
    else
      match p.findIdx? (· == ';') with
      | some m => p.take m
      | none => p
  else p

/-- Model of `urllib.parse.urlparse(url).path`: clean the url, split off
scheme, authority, query and fragment, and (for param-using schemes) the
`;params` suffix.  The error case models the `ValueError` raised for
mismatched brackets in the authority. -/
def urlparseE (url : String) : Except String String :=
  let cs := cleanUrl url.toList
  let sr := splitScheme cs
  match splitNetloc sr.2 with
  | Except.error e => Except.error e
  | Except.ok rest =>
    let path := rest.takeWhile (fun c => !(c == '?' || c == '#'))
    let path :=
      if usesParams.contains (String.mk sr.1) then splitParamsPath path
      else path
    Except.ok (String.mk path)

/-- Hexadecimal digit value, case-insensitive. -/
def hexVal (c : Char) : Option Nat :=
  if c.isDigit then some (c.toNat - 48)
  else if 'a' ≤ c ∧ c ≤ 'f' then some (c.toNat - 87)
  else if 'A' ≤ c ∧ c ≤ 'F' then some (c.toNat - 55)
  else none

/-- Model of `urllib.parse.unquote`: decode each `%XX` escape to the
character with that code, leaving malformed escapes untouched.  (Python
additionally UTF-8-decodes consecutive high bytes; for the ASCII escapes
exercised here the two agree.) -/
def unquoteL : List Char → List Char
  | '%' :: a :: b :: rest =>
    match hexVal a, hexVal b with
    | some x, some y => Char.ofNat (16 * x + y) :: unquoteL rest
    | _, _ => '%' :: unquoteL (a :: b :: rest)
  | c :: rest => c :: unquoteL rest
  | [] => []

/-- Python `path_decoded[1:]` guarded by `startswith('/')`. -/
def stripLeadSlash : List Char → List Char
  | '/' :: t => t
  | cs => cs

/-- Translation of `get_dir_from_url` from `html_parser.py`, returning the
directory together with the warnings printed to stderr (the `except` branch
prints one warning and returns the empty string). -/
def get_dir_from_url_diag (url : String) : String × List String :=
  match urlparseE url with
  | Except.ok p =>
    let path_decoded := stripLeadSlash (unquoteL p.toList)
    let last_slash_index := rfind path_decoded '/'
    if last_slash_index = -1 then (String.mk [], [])
    else (String.mk (path_decoded.take last_slash_index.toNat), [])
  | Except.error e =>
    (String.mk [], ["URL parse error: " ++ url ++ ". " ++ e])

/-- The value `get_dir_from_url` returns. -/
def get_dir_from_url (url : String) : String :=
  (get_dir_from_url_diag url).1

/-- Spec-side directory extraction, following the spec's words: take the
path component, percent-decode, strip a leading `/`, return everything
before the final `/`, and the empty string when there is no `/`. -/
def spec_dir_of (p : String) : String :=
  match spec_before_last '/' (stripLeadSlash (unquoteL p.toList)) with
  | none => String.mk []
  | some pre => String.mk pre

/-! ## Model of the size regex and the row extractor -/

/-- All decompositions of a list into a pair of adjacent parts. -/
def splits : List Char → List (List Char × List Char)
  | [] => [([], [])]
  | c :: t => ([], c :: t) :: (splits t).map (fun p => (c :: p.1, p.2))

/-- Regex `\d+`: one or more digits. -/
def isDigits (cs : List Char) : Bool :=
  !(cs.isEmpty) && cs.all Char.isDigit

/-- Regex `(\.\d+)?`: an optional fractional part. -/
def isFracOpt : List Char → Bool
  | [] => true
  | '.' :: ds => isDigits ds
  | _ => false

/-- Regex `\d+(\.\d+)?`: a decimal number. -/
def isNumTok (cs : List Char) : Bool :=
  (splits cs).any (fun p => isDigits p.1 && isFracOpt p.2)

/-- Regex `\s?`: at most one whitespace character. -/
def isWsOpt : List Char → Bool
  | [] => true
  | [c] => c.isWhitespace
  | _ => false

/-- Case-insensitive equality of character lists (regex `re.IGNORECASE`). -/
def lowerEq (a b : List Char) : Bool :=
  a.map Char.toLower == b.map Char.toLower

/-- The unit alternatives exactly as listed in the source regex
`(K|M|G|T|P|KiB|MiB|GiB|TiB|PiB|KB|MB|GB|TB|PB|bytes)`. -/
def codeUnits : List String :=
  ["K", "M", "G", "T", "P", "KiB", "MiB", "GiB", "TiB", "PiB",
   "KB", "MB", "GB", "TB", "PB", "bytes"]

/-- Whether `cs` is one of the units, case-insensitively. -/
def isUnitCI (units : List String) (cs : List Char) : Bool :=
  units.any (fun u => lowerEq cs u.toList)

/-- A match of the whole regex body `\d+(\.\d+)?\s?UNIT` against an entire
suffix (the `\Z` anchor). -/
def matchBody (units : List String) (cs : List Char) : Bool :=
  (splits cs).any (fun p =>
    isNumTok p.1 &&
    (splits p.2).any (fun q => isWsOpt q.1 && isUnitCI units q.2))

/-- Translation of
`re.search(r'\d+(\.\d+)?\s?(K|M|G|T|P|KiB|MiB|GiB|TiB|PiB|KB|MB|GB|TB|PB|bytes)\Z', text, re.IGNORECASE)`:
since the pattern is anchored at the end, `re.search` succeeds iff some
suffix of the text matches the body entirely. -/
def sizeMatches (text : String) : Bool :=
  text.toList.tails.any (matchBody codeUnits)

/-- Spec-side unit set, built as the spec words it: a unit drawn from
`{K, M, G, T, P}` optionally followed by `iB` or `B`, or the literal word
`bytes`. -/
def specUnits : List String :=
  (["K", "M", "G", "T", "P"].flatMap (fun u => [u, u ++ "iB", u ++ "B"]))
    ++ ["bytes"]

/-- The size acceptance pattern as the claim words it, with the decimal
number optional: the text ends with an optional decimal number, an optional
whitespace character and a unit. -/
def spec_size_orig (text : String) : Bool :=
  text.toList.tails.any (fun s =>
    (splits s).any (fun p =>
      (p.1.isEmpty || isNumTok p.1) &&
      (splits p.2).any (fun q => isWsOpt q.1 && isUnitCI specUnits q.2)))

/-- The size acceptance pattern with the decimal number mandatory (the
amended claim): the text ends with a decimal number, an optional whitespace
character and a unit drawn from the spec's unit set. -/
def spec_size_amended (text : String) : Bool :=
  text.toList.tails.any (matchBody specUnits)

/-! ## Abstract document model

`BeautifulSoup(html, 'lxml')` queries are abstracted to the structure the
extractor reads: the document's table rows in document order, each with its
href-bearing links (`row.find_all('a', href=True)`) and its cells
(`row.find_all('td')`) in document order.  Texts are stored raw; the
`get_text(strip=True)` call sites apply `pyStripStr`. -/

/-- An `<a href=...>` element: raw visible text and href attribute. -/
structure Anchor where
  text : String
  href : String
deriving DecidableEq

/-- A `<td>` element: its class attribute values and raw text. -/
structure Cell where
  classes : List String
  text : String
deriving DecidableEq

/-- A `<tr>` element with its links and cells in document order. -/
structure Row where
  links : List Anchor
  cells : List Cell
deriving DecidableEq

/-- One extracted content entry (the dict built by the source). -/
structure ContentRecord where
  unique_title : String
  itemTitle : String
  itemVersion : String
  itemAuthor : String
  itemSize : String
  path : String
  dataurl : String
deriving DecidableEq

/-- Translation of the link-selection loop: the first link whose stripped
text is not `".."` and whose href is not `".."`. -/
def findLink : List Anchor → Option Anchor
  | [] => none
  | link :: rest =>
    let link_text := pyStripStr link.text
    if link_text != ".." && link.href != ".." then some link
    else findLink rest

/-- Translation of the fallback size loop: the stripped text of the first
cell matching the size regex, or `""` when none matches. -/
def find_size_fallback : List Cell → String
  | [] => String.mk []
  | cell :: rest =>
    let text := pyStripStr cell.text
    if sizeMatches text then text else find_size_fallback rest

/-- Translation of the size selection of `parse_html_to_database`:
the stripped text of the first `td` with class `size` when that is
non-empty, otherwise the regex fallback over all cells. -/
def rowSize (row : Row) : String :=
  let item_size :=
    match row.cells.find? (fun c => c.classes.contains "size") with
    | some cell => pyStripStr cell.text
    | none => String.mk []
  if item_size = "" then find_size_fallback row.cells else item_size

/-- Translation of `parse_html_to_database`: walk the rows in document
order; a row contributes one record when it has a qualifying link and a
non-empty size; otherwise it is skipped. -/
def parse_html_to_database : List Row → List ContentRecord
  | [] => []
  | row :: rest =>
    match findLink row.links with
    | none => parse_html_to_database rest
    | some anchor =>
      let item_size := rowSize row
      if item_size = "" then parse_html_to_database rest
      else
        let item_title := pyStripStr anchor.text
        { unique_title := clean_title item_title
          itemTitle := item_title
          itemVersion := ""
          itemAuthor := ""
          itemSize := item_size
          path := get_dir_from_url anchor.href
          dataurl := anchor.href } :: parse_html_to_database rest

/-- Claim-side row predicate: the row yields both a qualifying link and a
non-empty size token. -/
def rowQualifies (row : Row) : Bool :=
  (findLink row.links).isSome && rowSize row != ""

/-- Claim-side record builder for a qualifying row. -/
def mkRecord (row : Row) : ContentRecord :=
  let anchor := (findLink row.links).getD ⟨"", ""⟩
  let item_title := pyStripStr anchor.text
  { unique_title := clean_title item_title
    itemTitle := item_title
    itemVersion := ""
    itemAuthor := ""
    itemSize := rowSize row
    path := get_dir_from_url anchor.href
    dataurl := anchor.href }

/-! ## Formatter -/

/-- The lines appended for one entry after its section header, with the
conditional fields exactly as in the source. -/
def entry_fields (e : ContentRecord) : List String :=
  ["itemTitle=" ++ e.itemTitle]
    ++ (if e.itemVersion ≠ "" then ["itemVersion=" ++ e.itemVersion] else [])
    ++ (if e.itemAuthor ≠ "" then ["itemAuthor=" ++ e.itemAuthor] else [])
    ++ (if e.itemSize ≠ "" then ["itemSize=" ++ e.itemSize] else [])
    ++ ["path=" ++ e.path, "dataurl=" ++ e.dataurl]

/-- All lines appended for one entry: the `\n`-prefixed section header,
then the fields. -/
def entryLines (e : ContentRecord) : List String :=
  ("\n[" ++ e.unique_title ++ "]") :: entry_fields e

/-- Model of Python `'\n'.join`. -/
def pyJoinNL : List String → String
  | [] => ""
  | [x] => x
  | x :: y :: rest => x ++ "\n" ++ pyJoinNL (y :: rest)

/-- Translation of `generate_ini_format`: build the line list entry by
entry and join with newlines. -/
def generate_ini_format (database : List ContentRecord) : String :=
  pyJoinNL (database.flatMap entryLines)

/-- Claim-side view of one section: the bare `[...]` header line followed
by the field lines. -/
def sectionLines (e : ContentRecord) : List String :=
  ("[" ++ e.unique_title ++ "]") :: entry_fields e

/-- A `[`-prefixed line. -/
def headerLike (s : String) : Bool :=
  s.toList.headD ' ' == '['

/-- A string free of newline characters. -/
def noNL (s : String) : Bool :=
  s.toList.all (fun c => !(c == '\n'))

/-- A record all of whose fields are free of newline characters. -/
def recordNLFree (e : ContentRecord) : Bool :=
  noNL e.unique_title && noNL e.itemTitle && noNL e.itemVersion &&
    noNL e.itemAuthor && noNL e.itemSize && noNL e.path && noNL e.dataurl

/-- Split a character list at newline characters. -/
def splitNL : List Char → List (List Char)
  | [] => [[]]
  | c :: t =>
    if c = '\n' then [] :: splitNL t
    else
      match splitNL t with
      | [] => [[c]]
      | h :: hs => (c :: h) :: hs

/-- The lines of a string. -/
def linesOf (s : String) : List String :=
  (splitNL s.toList).map String.mk

/-! ## Concrete fixtures -/

/-- A row whose first class-`size` cell is blank while a later class-`size`
cell reads `unknown`, and whose first plain cell reads `400M`. -/
def cexRowC5 : Row :=
  ⟨[], [⟨[], "400M"⟩, ⟨["size"], "  "⟩, ⟨["size"], "unknown"⟩]⟩

/-- A row whose first class-`size` cell reads `6.5 GiB` while another cell
would also match the fallback pattern. -/
def wRowC5 : Row :=
  ⟨[], [⟨["size"], " 6.5 GiB "⟩, ⟨[], "400M"⟩]⟩

/-- The first class-`size` cell of `wRowC5`. -/
def wCellC5 : Cell := ⟨["size"], " 6.5 GiB "⟩

/-- A link list starting with a parent-directory link. -/
def wLinksC6 : List Anchor := [⟨"..", ".."⟩, ⟨"file.zip", "/a/file.zip"⟩]

/-- A row whose links are all parent-directory links (by text or by href). -/
def wRowC6 : Row := ⟨[⟨"..", "x"⟩, ⟨"y", ".."⟩], []⟩

/-- An anchor whose href fails URL parsing (mismatched bracket). -/
def wAnchorC8 : Anchor := ⟨"file.zip", "http://[abc"⟩

/-- A row holding the unparseable href together with a size cell. -/
def wRowC8 : Row := ⟨[wAnchorC8], [⟨[], "400M"⟩]⟩

/-- A record whose `itemTitle` smuggles a newline and a `[`-line into the
output. -/
def cexRecC7 : ContentRecord := ⟨"T", "x\n[y]", "", "", "1K", "p", "d"⟩

/-- Two ordinary newline-free records. -/
def wDbC7 : List ContentRecord :=
  [⟨"A", "a.zip", "", "", "1K", "p1", "u1"⟩,
   ⟨"B", "b.zip", "", "", "", "p2", "u2"⟩]

/-! ## Lemmas: rfind and last-occurrence splitting -/

theorem rfind_of_not_mem {ch : Char} : ∀ {cs : List Char}, ch ∉ cs → rfind cs ch = -1 := by
  intro cs h
  induction cs with
  | nil => rfl
  | cons c t ih =>
    have hc : ¬ c = ch := by rintro rfl; exact h (List.mem_cons_self c t)
    have ht : ch ∉ t := fun m => h (List.mem_cons_of_mem _ m)
    simp [rfind, ih ht, hc]

theorem rfind_cases (cs : List Char) (ch : Char) : rfind cs ch = -1 ∨ 0 ≤ rfind cs ch := by
  induction cs with
  | nil => exact Or.inl rfl
  | cons c t ih =>
    simp only [rfind]
    by_cases h : (0 : Int) ≤ rfind t ch
    · right; rw [if_pos h]; omega
    · rw [if_neg h]
      by_cases hc : c = ch
      · right; rw [if_pos hc]
      · left; rw [if_neg hc]

theorem rfind_append {ch : Char} {suf : List Char} (h : ch ∉ suf) :
    ∀ pre : List Char, rfind (pre ++ ch :: suf) ch = (pre.length : Int) := by
  intro pre
  induction pre with
  | nil => simp [rfind, rfind_of_not_mem h]
  | cons c t ih =>
    have hpos : (0 : Int) ≤ (t.length : Int) := by positivity
    simp only [List.cons_append, rfind, List.append_eq, ih, List.length_cons]
    rw [if_pos hpos]
    push_cast
    ring

theorem beforeLastRev_of_not_mem {ch : Char} :
    ∀ {l : List Char}, ch ∉ l → beforeLastRev ch l = none := by
  intro l h
  induction l with
  | nil => rfl
  | cons c t ih =>
    have hc : ¬ c = ch := by rintro rfl; exact h (List.mem_cons_self c t)
    have ht : ch ∉ t := fun m => h (List.mem_cons_of_mem _ m)
    simp [beforeLastRev, hc, ih ht]

theorem beforeLastRev_append {ch : Char} {b : List Char} :
    ∀ {a : List Char}, ch ∉ a → beforeLastRev ch (a ++ ch :: b) = some b := by
  intro a h
  induction a with
  | nil => simp [beforeLastRev]
  | cons c t ih =>
    have hc : ¬ c = ch := by rintro rfl; exact h (List.mem_cons_self c t)
    have ht : ch ∉ t := fun m => h (List.mem_cons_of_mem _ m)
    simp [beforeLastRev, hc, ih ht]

theorem exists_first_split {ch : Char} :
    ∀ {l : List Char}, ch ∈ l → ∃ a b, l = a ++ ch :: b ∧ ch ∉ a := by
  intro l h
  induction l with
  | nil => cases h
  | cons c t ih =>
    by_cases hc : c = ch
    · exact ⟨[], t, by rw [hc]; rfl, List.not_mem_nil ch⟩
    · have ht : ch ∈ t := by
        rcases List.mem_cons.mp h with h1 | h1
        · exact absurd h1.symm hc
        · exact h1
      obtain ⟨a, b, rfl, hna⟩ := ih ht
      exact ⟨c :: a, b, rfl, by
        intro m
        rcases List.mem_cons.mp m with h1 | h1
        · exact hc h1.symm
        · exact hna h1⟩

theorem exists_last_split {ch : Char} {cs : List Char} (h : ch ∈ cs) :
    ∃ pre suf, cs = pre ++ ch :: suf ∧ ch ∉ suf := by
  obtain ⟨a, b, hab, hna⟩ := exists_first_split (List.mem_reverse.mpr h)
  refine ⟨b.reverse, a.reverse, ?_, by simpa using hna⟩
  have h2 := congrArg List.reverse hab
  rw [List.reverse_reverse] at h2
  rw [h2]
  simp [List.reverse_append]

theorem spec_before_last_of_not_mem {ch : Char} {cs : List Char} (h : ch ∉ cs) :
    spec_before_last ch cs = none := by
  have : ch ∉ cs.reverse := by simpa using h
  simp [spec_before_last, beforeLastRev_of_not_mem this]

theorem spec_before_last_split {ch : Char} {pre suf : List Char} (h : ch ∉ suf) :
    spec_before_last ch (pre ++ ch :: suf) = some pre := by
  have hrev : (pre ++ ch :: suf).reverse = suf.reverse ++ ch :: pre.reverse := by
    simp [List.reverse_append]
  have hns : ch ∉ suf.reverse := by simpa using h
  simp [spec_before_last, hrev, beforeLastRev_append hns]

/-! ## Bridges between the rfind-based code and the spec's wording -/

theorem stripExt_eq_spec (cs : List Char) :
    (if 0 < rfind cs '.' then cs.take (rfind cs '.').toNat else cs) = spec_stripExt cs := by
  by_cases h : '.' ∈ cs
  · obtain ⟨pre, suf, rfl, hns⟩ := exists_last_split h
    rw [rfind_append hns]
    simp only [spec_stripExt, spec_before_last_split hns]
    by_cases hp : pre = []
    · subst hp; simp
    · have hlen : 0 < pre.length := List.length_pos.mpr hp
      rw [if_pos (by exact_mod_cast hlen), if_neg hp, Int.toNat_ofNat, List.take_left]
  · rw [rfind_of_not_mem h]
    simp [spec_stripExt, spec_before_last_of_not_mem h]

theorem takeBeforeLast_eq_spec (cs : List Char) :
    (if rfind cs '/' = -1 then ([] : List Char) else cs.take (rfind cs '/').toNat) =
      (match spec_before_last '/' cs with | none => [] | some pre => pre) := by
  by_cases h : '/' ∈ cs
  · obtain ⟨pre, suf, rfl, hns⟩ := exists_last_split h
    rw [rfind_append hns]
    simp only [spec_before_last_split hns]
    have : ((pre.length : Int)) ≠ -1 := by omega
    rw [if_neg this, Int.toNat_ofNat, List.take_left]
  · rw [rfind_of_not_mem h]
    simp [spec_before_last_of_not_mem h]

/-- Claim C2: `clean_title` strips from the last `.` (unless that dot is the
first character, and stripping nothing when there is no dot), removes every
`!` and `+`, and trims surrounding whitespace; in particular it maps
`"Game Title.zip"` to `"Game Title"`, `"Ultra!+Mix.7z"` to `"UltraMix"`, and
`"noext"` to `"noext"`. -/
theorem clean_title_matches_spec (title : String) :
    clean_title title = spec_clean_title title ∧
    clean_title "Game Title.zip" = "Game Title" ∧
    clean_title "Ultra!+Mix.7z" = "UltraMix" ∧
    clean_title "noext" = "noext" := by
  refine ⟨?_, by decide, by decide, by decide⟩
  simp only [clean_title, spec_clean_title]
  rw [stripExt_eq_spec]

/-- Claim C3: on every href whose URL parse succeeds, `get_dir_from_url`
returns the percent-decoded path with its leading `/` stripped and
everything from the final `/` removed (empty when there is no `/`); in
particular the Redump example yields `files/Redump/Microsoft - Xbox 360`. -/
theorem get_dir_matches_spec (url p : String) :
    (urlparseE url = Except.ok p → get_dir_from_url url = spec_dir_of p) ∧
    get_dir_from_url "/files/Redump/Microsoft%20-%20Xbox%20360/file.zip" =
      "files/Redump/Microsoft - Xbox 360" := by
  constructor
  · intro h
    simp only [get_dir_from_url, get_dir_from_url_diag, h, spec_dir_of]
    by_cases hm : '/' ∈ stripLeadSlash (unquoteL p.toList)
    · obtain ⟨pre, suf, heq, hns⟩ := exists_last_split hm
      rw [heq, rfind_append hns, spec_before_last_split hns]
      have hne : ((pre.length : Int)) ≠ -1 := by omega
      rw [if_neg hne, Int.toNat_ofNat, List.take_left]
    · rw [rfind_of_not_mem hm, spec_before_last_of_not_mem hm]
      simp
  · decide

/-- Witness for C3 at a full URL with scheme and authority. -/
theorem get_dir_matches_spec_witness :
    get_dir_from_url "http://example.com/a/b%20c/f.zip" = spec_dir_of "/a/b%20c/f.zip" :=
  (get_dir_matches_spec "http://example.com/a/b%20c/f.zip" "/a/b%20c/f.zip").1 rfl

/-! ## Lemmas: pyStrip -/

theorem dropWhile_dropWhile {α : Type} (p : α → Bool) (l : List α) :
    (l.dropWhile p).dropWhile p = l.dropWhile p := by
  induction l with
  | nil => rfl
  | cons a t ih =>
    by_cases h : p a
    · simp [List.dropWhile_cons, h, ih]
    · simp [List.dropWhile_cons, h]

theorem dropWhile_head_false {α : Type} (p : α → Bool) (l : List α) :
    ∀ c t, l.dropWhile p = c :: t → p c = false := by
  induction l with
  | nil => intro c t h; cases h
  | cons a l2 ih =>
    intro c t h
    by_cases ha : p a
    · rw [List.dropWhile_cons, if_pos ha] at h
      exact ih c t h
    · rw [List.dropWhile_cons, if_neg ha] at h
      injection h with h1 h2
      subst h1
      simpa using ha

theorem mem_dropTrailWS {c : Char} {l : List Char} (h : c ∈ dropTrailWS l) : c ∈ l := by
  unfold dropTrailWS at h
  rw [List.mem_reverse] at h
  exact List.mem_reverse.mp ((List.dropWhile_sublist _).subset h)

theorem mem_pyStrip {c : Char} {l : List Char} (h : c ∈ pyStrip l) : c ∈ l :=
  (List.dropWhile_sublist _).subset (mem_dropTrailWS h)

theorem dropTrailWS_cons_not_ws {c : Char} (hc : c.isWhitespace = false) (t : List Char) :
    dropTrailWS (c :: t) = c :: dropTrailWS t := by
  unfold dropTrailWS
  rw [show (c :: t).reverse = t.reverse ++ [c] from by simp]
  rw [List.dropWhile_append]
  by_cases h : (t.reverse.dropWhile Char.isWhitespace).isEmpty
  · rw [if_pos h]
    have ht : t.reverse.dropWhile Char.isWhitespace = [] := by
      simpa [List.isEmpty_iff] using h
    simp [List.dropWhile_cons, hc, ht]
  · rw [if_neg h]
    simp [List.reverse_append]

theorem dropTrailWS_idem (z : List Char) : dropTrailWS (dropTrailWS z) = dropTrailWS z := by
  unfold dropTrailWS
  rw [List.reverse_reverse, dropWhile_dropWhile]

theorem dropTrailWS_isPre (z : List Char) : ∃ v, dropTrailWS z ++ v = z := by
  obtain ⟨u, hu⟩ := (List.dropWhile_suffix (l := z.reverse) Char.isWhitespace)
  refine ⟨u.reverse, ?_⟩
  have h2 := congrArg List.reverse hu
  rw [List.reverse_append, List.reverse_reverse] at h2
  exact h2

theorem dropWhile_pyStrip (l : List Char) :
    (pyStrip l).dropWhile Char.isWhitespace = pyStrip l := by
  cases hy : pyStrip l with
  | nil => rfl
  | cons c t =>
    obtain ⟨v, hv⟩ := dropTrailWS_isPre (l.dropWhile Char.isWhitespace)
    rw [show pyStrip l = dropTrailWS (l.dropWhile Char.isWhitespace) from rfl] at hy
    rw [hy, List.cons_append] at hv
    have hc : Char.isWhitespace c = false :=
      dropWhile_head_false _ l c (t ++ v) hv.symm
    rw [List.dropWhile_cons, if_neg (by simp [hc])]

theorem pyStrip_idem (l : List Char) : pyStrip (pyStrip l) = pyStrip l := by
  have h1 : pyStrip (pyStrip l) = dropTrailWS (pyStrip l) := by
    unfold pyStrip
    rw [show (dropTrailWS (l.dropWhile Char.isWhitespace)).dropWhile Char.isWhitespace
          = pyStrip l from dropWhile_pyStrip l]
    rfl
  rw [h1]
  show dropTrailWS (dropTrailWS (l.dropWhile Char.isWhitespace)) = pyStrip l
  rw [dropTrailWS_idem]
  rfl

/-! ## Lemmas: more rfind characterizations -/

theorem rfind_nonneg_of_mem {ch : Char} : ∀ {cs : List Char}, ch ∈ cs → 0 ≤ rfind cs ch := by
  intro cs h
  induction cs with
  | nil => cases h
  | cons c t ih =>
    simp only [rfind]
    by_cases h0 : (0 : Int) ≤ rfind t ch
    · rw [if_pos h0]; omega
    · rw [if_neg h0]
      by_cases hc : c = ch
      · rw [if_pos hc]
      · rw [if_neg hc]
        exfalso
        rcases List.mem_cons.mp h with h1 | h1
        · exact hc h1.symm
        · exact h0 (ih h1)

theorem rfind_eq_zero {ch : Char} {cs : List Char} (h : rfind cs ch = 0) :
    ∃ t, cs = ch :: t ∧ ch ∉ t := by
  cases cs with
  | nil => simp [rfind] at h
  | cons c t =>
    simp only [rfind] at h
    by_cases h0 : (0 : Int) ≤ rfind t ch
    · rw [if_pos h0] at h; omega
    · rw [if_neg h0] at h
      by_cases hc : c = ch
      · subst hc
        exact ⟨t, rfl, fun m => h0 (rfind_nonneg_of_mem m)⟩
      · rw [if_neg hc] at h
        omega

/-- Claim C9: on inputs already free of a trailing extension (no `.` at a
positive index, which is how the code recognises extensions) and free of the
forbidden characters `!` and `+`, `clean_title` is idempotent. -/
theorem clean_title_idempotent (x : String)
    (h1 : rfind x.toList '.' ≤ 0)
    (h2 : x.toList.all notForbidden = true) :
    clean_title (clean_title x) = clean_title x := by
  have hext : (if 0 < rfind x.toList '.'
      then x.toList.take (rfind x.toList '.').toNat else x.toList) = x.toList :=
    if_neg (by omega)
  have hfil : x.toList.filter notForbidden = x.toList :=
    List.filter_eq_self.mpr (List.all_eq_true.mp h2)
  have hcx : clean_title x = String.mk (pyStrip x.toList) := by
    simp only [clean_title]
    rw [hext, hfil]
  have hty : (String.mk (pyStrip x.toList)).toList = pyStrip x.toList := rfl
  have h2y : (pyStrip x.toList).all notForbidden = true :=
    List.all_eq_true.mpr (fun c hc => List.all_eq_true.mp h2 c (mem_pyStrip hc))
  have hry : rfind (pyStrip x.toList) '.' ≤ 0 := by
    rcases rfind_cases x.toList '.' with hneg | hpos
    · have hnm : '.' ∉ x.toList := fun m => by
        have := rfind_nonneg_of_mem m
        omega
      rw [rfind_of_not_mem (fun m => hnm (mem_pyStrip m))]
      omega
    · have h0 : rfind x.toList '.' = 0 := by omega
      obtain ⟨t, hxt, hnt⟩ := rfind_eq_zero h0
      have hws : ('.' : Char).isWhitespace = false := by decide
      have hshape : pyStrip x.toList = '.' :: dropTrailWS t := by
        rw [hxt]
        unfold pyStrip
        rw [List.dropWhile_cons, if_neg (by simp [hws])]
        exact dropTrailWS_cons_not_ws hws t
      rw [hshape]
      have hnd : '.' ∉ dropTrailWS t := fun m => hnt (mem_dropTrailWS m)
      simp only [rfind, rfind_of_not_mem hnd]
      norm_num
  rw [hcx]
  simp only [clean_title, hty]
  rw [if_neg (by omega : ¬ 0 < rfind (pyStrip x.toList) '.'),
    List.filter_eq_self.mpr (List.all_eq_true.mp h2y), pyStrip_idem]

/-- Witness for C9 at a dot-file name free of extension and forbidden
characters. -/
theorem clean_title_idempotent_witness :
    rfind ".config".toList '.' ≤ 0 ∧ ".config".toList.all notForbidden = true ∧
      clean_title (clean_title ".config") = clean_title ".config" :=
  ⟨by decide, by decide, clean_title_idempotent ".config" (by decide) (by decide)⟩

/-! ## Lemmas: size pattern and row selection -/

theorem any_eq_of_mem_iff {α : Type} (us vs : List α) (f : α → Bool)
    (h : ∀ u, u ∈ us ↔ u ∈ vs) : us.any f = vs.any f := by
  rw [Bool.eq_iff_iff]
  simp only [List.any_eq_true]
  constructor
  · rintro ⟨u, hu, hf⟩
    exact ⟨u, (h u).mp hu, hf⟩
  · rintro ⟨u, hu, hf⟩
    exact ⟨u, (h u).mpr hu, hf⟩

set_option maxHeartbeats 1000000 in
theorem codeUnits_mem_iff (u : String) : u ∈ codeUnits ↔ u ∈ specUnits := by
  have e1 : ("K" ++ "iB" : String) = "KiB" := rfl
  have e2 : ("K" ++ "B" : String) = "KB" := rfl
  have e3 : ("M" ++ "iB" : String) = "MiB" := rfl
  have e4 : ("M" ++ "B" : String) = "MB" := rfl
  have e5 : ("G" ++ "iB" : String) = "GiB" := rfl
  have e6 : ("G" ++ "B" : String) = "GB" := rfl
  have e7 : ("T" ++ "iB" : String) = "TiB" := rfl
  have e8 : ("T" ++ "B" : String) = "TB" := rfl
  have e9 : ("P" ++ "iB" : String) = "PiB" := rfl
  have e10 : ("P" ++ "B" : String) = "PB" := rfl
  simp only [codeUnits, specUnits, List.flatMap_cons, List.flatMap_nil,
    List.cons_append, List.nil_append, List.append_nil, List.mem_cons,
    List.not_mem_nil, or_false, e1, e2, e3, e4, e5, e6, e7, e8, e9, e10]
  tauto

theorem isUnitCI_code_eq_spec (cs : List Char) :
    isUnitCI codeUnits cs = isUnitCI specUnits cs :=
  any_eq_of_mem_iff _ _ _ codeUnits_mem_iff

theorem matchBody_code_eq_spec : matchBody codeUnits = matchBody specUnits := by
  funext cs
  simp only [matchBody, isUnitCI_code_eq_spec]

theorem sizeMatches_eq_amended (t : String) : sizeMatches t = spec_size_amended t := by
  simp only [sizeMatches, spec_size_amended, matchBody_code_eq_spec]

theorem find_size_fallback_eq (cells : List Cell) :
    find_size_fallback cells =
      ((cells.find? (fun c => sizeMatches (pyStripStr c.text))).map
        (fun c => pyStripStr c.text)).getD "" := by
  induction cells with
  | nil => rfl
  | cons c rest ih =>
    by_cases h : sizeMatches (pyStripStr c.text)
    · simp [find_size_fallback, List.find?_cons, h]
    · simp [find_size_fallback, List.find?_cons, h, ih]

/-- Claim C4 (amended): the fallback heuristic accepts a cell text iff the
text ends with a decimal number (at least one digit, optional fraction),
then at most one whitespace character, then a unit drawn from
`{K, M, G, T, P}` optionally followed by `iB` or `B`, or the word `bytes`,
case-insensitively; and the first cell whose stripped text is accepted
supplies the size token.  (The claim's optional decimal number is in fact
mandatory in the code's regex.) -/
theorem size_fallback_amended (t : String) (cells : List Cell) :
    sizeMatches t = spec_size_amended t ∧
    find_size_fallback cells =
      ((cells.find? (fun c => sizeMatches (pyStripStr c.text))).map
        (fun c => pyStripStr c.text)).getD "" :=
  ⟨sizeMatches_eq_amended t, find_size_fallback_eq cells⟩

/-- Counterexample to C4 as stated: `"bytes"` ends with an (absent) optional
decimal number, no whitespace and the unit word `bytes`, so the claimed
pattern accepts it, yet the code's regex (mandatory `\d+`) rejects it. -/
theorem size_fallback_counterexample :
    spec_size_orig "bytes" = true ∧ sizeMatches "bytes" = false :=
  ⟨by decide, by decide⟩

/-- Claim C5 (amended): when the first class-`size` cell of a row has
non-empty stripped text, that text is the size token and the fallback is
not consulted; the fallback is consulted exactly when there is no
class-`size` cell or the first one's stripped text is empty.  (The code
takes the first class-`size` cell, so a later non-empty class-`size` cell
does not win.) -/
theorem size_cell_priority (row : Row) (cell : Cell) :
    (row.cells.find? (fun c => c.classes.contains "size") = some cell →
      pyStripStr cell.text ≠ "" → rowSize row = pyStripStr cell.text) ∧
    (row.cells.find? (fun c => c.classes.contains "size") = some cell →
      pyStripStr cell.text = "" → rowSize row = find_size_fallback row.cells) ∧
    (row.cells.find? (fun c => c.classes.contains "size") = none →
      rowSize row = find_size_fallback row.cells) := by
  refine ⟨?_, ?_, ?_⟩
  · intro hf hne
    simp only [rowSize, hf]
    rw [if_neg hne]
  · intro hf he
    simp only [rowSize, hf]
    rw [if_pos he]
  · intro hf
    simp only [rowSize, hf]
    simp

/-- Witness for C5: the `6.5 GiB` size cell wins over the matching plain
cell, and a blank first size cell sends the row to the fallback. -/
theorem size_cell_priority_witness :
    rowSize wRowC5 = "6.5 GiB" ∧
    rowSize cexRowC5 = find_size_fallback cexRowC5.cells :=
  ⟨(size_cell_priority wRowC5 wCellC5).1 rfl (by decide),
   (size_cell_priority cexRowC5 ⟨["size"], "  "⟩).2.1 rfl (by decide)⟩

/-- Counterexample to C5 as stated: `cexRowC5` has a class-`size` cell with
non-empty stripped text `unknown`, yet the size token is the fallback's
`400M`, because the code consults only the FIRST class-`size` cell (here
blank). -/
theorem size_cell_priority_counterexample :
    (cexRowC5.cells.any fun c =>
      c.classes.contains "size" && (pyStripStr c.text == "unknown")) = true ∧
    rowSize cexRowC5 = "400M" :=
  ⟨by decide, by decide⟩

/-- Claim C6: the qualifying link is the first link in document order whose
stripped text and href both differ from `".."`; any selected link satisfies
this, and a row with no qualifying link yields no record. -/
theorem qualifying_link_selection (links : List Anchor) (row : Row) :
    findLink links = links.find? (fun l => pyStripStr l.text != ".." && l.href != "..") ∧
    (∀ a, findLink links = some a → pyStripStr a.text ≠ ".." ∧ a.href ≠ "..") ∧
    (findLink row.links = none → parse_html_to_database [row] = []) := by
  have h1 : ∀ ls : List Anchor,
      findLink ls = ls.find? (fun l => pyStripStr l.text != ".." && l.href != "..") := by
    intro ls
    induction ls with
    | nil => rfl
    | cons link rest ih =>
      simp only [findLink, List.find?_cons]
      cases hb : (pyStripStr link.text != ".." && link.href != "..") with
      | true => simp [hb]
      | false => simp [hb, ih]
  refine ⟨h1 links, ?_, ?_⟩
  · intro a ha
    rw [h1 links] at ha
    have := List.find?_some ha
    simpa [bne_iff_ne] using this
  · intro h
    simp [parse_html_to_database, h]

/-- Witness for C6: a parent-directory-only row is skipped, the selected
link of a mixed list is the non-`".."` one. -/
theorem qualifying_link_selection_witness :
    parse_html_to_database [wRowC6] = [] ∧
    pyStripStr ((⟨"file.zip", "/a/file.zip"⟩ : Anchor)).text ≠ ".." ∧
    ((⟨"file.zip", "/a/file.zip"⟩ : Anchor)).href ≠ ".." :=
  ⟨(qualifying_link_selection wLinksC6 wRowC6).2.2 rfl,
   (qualifying_link_selection wLinksC6 wRowC6).2.1 ⟨"file.zip", "/a/file.zip"⟩ (by decide)⟩

/-- Claim C1: the extractor emits exactly one record per row having both a
qualifying link and a non-empty size token, none for other rows, in
document order. -/
theorem extraction_per_row (rows : List Row) :
    parse_html_to_database rows = (rows.filter rowQualifies).map mkRecord ∧
    (parse_html_to_database rows).length = (rows.filter rowQualifies).length := by
  have main : ∀ rs : List Row,
      parse_html_to_database rs = (rs.filter rowQualifies).map mkRecord := by
    intro rs
    induction rs with
    | nil => rfl
    | cons row rest ih =>
      simp only [parse_html_to_database]
      cases hL : findLink row.links with
      | none =>
        have hq : rowQualifies row = false := by simp [rowQualifies, hL]
        simp [List.filter_cons, hq, ih]
      | some anchor =>
        by_cases hs : rowSize row = ""
        · have hq : rowQualifies row = false := by simp [rowQualifies, hL, hs]
          simp [List.filter_cons, hq, ih, hs]
        · have hq : rowQualifies row = true := by simp [rowQualifies, hL, bne_iff_ne, hs]
          simp [List.filter_cons, hq, ih, hs, mkRecord, hL]
  exact ⟨main rows, by rw [main rows, List.length_map]⟩

/-- Claim C8: on any href whose URL parse fails, `get_dir_from_url`
returns the empty path and one diagnostic warning, and the row's record
is still emitted with its other fields taken from the raw href and link
text. -/
theorem get_dir_error_handling (url e : String) (row : Row) (a : Anchor) :
    (urlparseE url = Except.error e →
      get_dir_from_url url = "" ∧ (get_dir_from_url_diag url).2.length = 1) ∧
    (findLink row.links = some a → rowSize row ≠ "" →
      urlparseE a.href = Except.error e →
      parse_html_to_database [row] =
        [{ unique_title := clean_title (pyStripStr a.text),
           itemTitle := pyStripStr a.text, itemVersion := "", itemAuthor := "",
           itemSize := rowSize row, path := "", dataurl := a.href }]) := by
  constructor
  · intro h
    constructor
    · simp [get_dir_from_url, get_dir_from_url_diag, h]
    · simp [get_dir_from_url_diag, h]
  · intro hL hs hE
    simp only [parse_html_to_database, hL]
    rw [if_neg hs]
    simp [get_dir_from_url, get_dir_from_url_diag, hE]

/-- Witness for C8 at the bracket-mangled href `http://[abc`. -/
theorem get_dir_error_handling_witness :
    get_dir_from_url "http://[abc" = "" ∧
    (get_dir_from_url_diag "http://[abc").2.length = 1 ∧
    parse_html_to_database [wRowC8] =
      [{ unique_title := "file", itemTitle := "file.zip", itemVersion := "",
         itemAuthor := "", itemSize := "400M", path := "",
         dataurl := "http://[abc" }] := by
  have h1 := (get_dir_error_handling "http://[abc" "Invalid IPv6 URL" wRowC8 wAnchorC8).1 rfl
  have h2 := (get_dir_error_handling "http://[abc" "Invalid IPv6 URL" wRowC8 wAnchorC8).2
    rfl (by decide) rfl
  refine ⟨h1.1, h1.2, ?_⟩
  rw [h2]
  decide

/-! ## Lemmas: formatter -/

theorem toList_append (a b : String) : (a ++ b).toList = a.toList ++ b.toList :=
  String.data_append a b

theorem mk_toList (s : String) : String.mk s.toList = s := rfl

theorem empty_append_str (s : String) : "" ++ s = s :=
  String.ext (by simp [String.data_append])

theorem pyJoinNL_append (A B : List String) (hA : A ≠ []) (hB : B ≠ []) :
    pyJoinNL (A ++ B) = pyJoinNL A ++ "\n" ++ pyJoinNL B := by
  induction A with
  | nil => cases hA rfl
  | cons x A2 ih =>
    cases A2 with
    | nil =>
      cases B with
      | nil => cases hB rfl
      | cons y r => rfl
    | cons x2 A3 =>
      have h2 : pyJoinNL ((x2 :: A3) ++ B) = pyJoinNL (x2 :: A3) ++ "\n" ++ pyJoinNL B :=
        ih (List.cons_ne_nil x2 A3)
      simp only [List.cons_append] at h2 ⊢
      simp only [pyJoinNL]
      rw [h2]
      simp [String.append_assoc]

theorem pyJoinNL_nl_shift (x : String) (L : List String) :
    pyJoinNL (("\n" ++ x) :: L) = pyJoinNL ("" :: x :: L) := by
  cases L with
  | nil => simp only [pyJoinNL, String.append_assoc, empty_append_str]
  | cons y r => simp only [pyJoinNL, String.append_assoc, empty_append_str]

theorem entry_head_split (e : ContentRecord) :
    ("\n[" ++ e.unique_title ++ "]") = "\n" ++ ("[" ++ e.unique_title ++ "]") := by
  apply String.ext
  simp [String.data_append, List.append_assoc]

theorem pyJoinNL_entry (e : ContentRecord) :
    pyJoinNL (entryLines e) = pyJoinNL ("" :: sectionLines e) := by
  show pyJoinNL (("\n[" ++ e.unique_title ++ "]") :: entry_fields e) = _
  rw [entry_head_split e, pyJoinNL_nl_shift]
  rfl

theorem entryLines_ne_nil (e : ContentRecord) : entryLines e ≠ [] := by
  simp [entryLines]

theorem generate_eq_sections (db : List ContentRecord) :
    generate_ini_format db = pyJoinNL (db.flatMap (fun e => "" :: sectionLines e)) := by
  induction db with
  | nil => rfl
  | cons e rest ih =>
    cases rest with
    | nil =>
      show pyJoinNL (entryLines e ++ []) = pyJoinNL (("" :: sectionLines e) ++ [])
      rw [List.append_nil, List.append_nil, pyJoinNL_entry]
    | cons e2 r2 =>
      have hfe : (e2 :: r2).flatMap entryLines ≠ [] := by
        simp [List.flatMap_cons, entryLines]
      have hfs : (e2 :: r2).flatMap (fun x => "" :: sectionLines x) ≠ [] := by
        simp [List.flatMap_cons]
      show pyJoinNL (entryLines e ++ (e2 :: r2).flatMap entryLines) =
        pyJoinNL (("" :: sectionLines e) ++ (e2 :: r2).flatMap (fun x => "" :: sectionLines x))
      rw [pyJoinNL_append _ _ (entryLines_ne_nil e) hfe,
        pyJoinNL_append _ _ (List.cons_ne_nil _ _) hfs, pyJoinNL_entry]
      have ih2 : pyJoinNL ((e2 :: r2).flatMap entryLines) =
          pyJoinNL ((e2 :: r2).flatMap (fun x => "" :: sectionLines x)) := ih
      rw [ih2]

theorem headerLike_header (u : String) : headerLike ("[" ++ u ++ "]") = true := by
  have h1 : ("[" : String).toList = ['['] := rfl
  simp [headerLike, toList_append, h1]

theorem headerLike_key {k : Char} {r : List Char} (s v : String)
    (hk : s.toList = k :: r) (hc : (k == '[') = false) :
    headerLike (s ++ v) = false := by
  simp only [headerLike, toList_append]
  rw [show s.toList = k :: r from hk]
  simp [hc]

theorem mem_ite_singleton {P : Prop} [Decidable P] {s a : String}
    (h : s ∈ (if P then [a] else [])) : s = a := by
  by_cases hp : P
  · rw [if_pos hp] at h
    simpa using h
  · rw [if_neg hp] at h
    cases h

theorem entry_fields_cases (e : ContentRecord) :
    ∀ s ∈ entry_fields e,
      s = "itemTitle=" ++ e.itemTitle ∨ s = "itemVersion=" ++ e.itemVersion ∨
      s = "itemAuthor=" ++ e.itemAuthor ∨ s = "itemSize=" ++ e.itemSize ∨
      s = "path=" ++ e.path ∨ s = "dataurl=" ++ e.dataurl := by
  intro s hs
  by_cases hV : e.itemVersion ≠ "" <;> by_cases hA : e.itemAuthor ≠ "" <;>
    by_cases hS : e.itemSize ≠ "" <;> simp [entry_fields, hV, hA, hS] at hs <;> tauto

theorem entry_fields_not_header (e : ContentRecord) :
    ∀ s ∈ entry_fields e, headerLike s = false := by
  intro s hs
  rcases entry_fields_cases e s hs with h | h | h | h | h | h <;> subst h
  · exact headerLike_key _ _ (by rfl) (by decide)
  · exact headerLike_key _ _ (by rfl) (by decide)
  · exact headerLike_key _ _ (by rfl) (by decide)
  · exact headerLike_key _ _ (by rfl) (by decide)
  · exact headerLike_key _ _ (by rfl) (by decide)
  · exact headerLike_key _ _ (by rfl) (by decide)

theorem filter_entry_fields (e : ContentRecord) :
    (entry_fields e).filter headerLike = [] := by
  rw [List.filter_eq_nil_iff]
  intro s hs
  simp [entry_fields_not_header e s hs]

theorem sections_filter_header (db : List ContentRecord) :
    (db.flatMap (fun e => "" :: sectionLines e)).filter headerLike =
      db.map (fun e => "[" ++ e.unique_title ++ "]") := by
  induction db with
  | nil => rfl
  | cons e rest ih =>
    simp only [List.flatMap_cons, List.map_cons, List.filter_append]
    rw [show ("" :: sectionLines e).filter headerLike = ["[" ++ e.unique_title ++ "]"] from ?_,
      ih]
    · rfl
    · show List.filter headerLike ("" :: ("[" ++ e.unique_title ++ "]") :: entry_fields e) = _
      rw [List.filter_cons, List.filter_cons]
      simp [headerLike_header, filter_entry_fields e, headerLike]

theorem splitNL_no_nl : ∀ {cs : List Char}, '\n' ∉ cs → splitNL cs = [cs] := by
  intro cs h
  induction cs with
  | nil => rfl
  | cons c t ih =>
    have hc : ¬ c = '\n' := fun e => h (by rw [← e]; exact List.mem_cons_self c t)
    have ht : '\n' ∉ t := fun m => h (List.mem_cons_of_mem _ m)
    simp [splitNL, hc, ih ht]

theorem splitNL_append {a : List Char} (h : '\n' ∉ a) (b : List Char) :
    splitNL (a ++ '\n' :: b) = a :: splitNL b := by
  induction a with
  | nil => simp [splitNL]
  | cons c t ih =>
    have hc : ¬ c = '\n' := fun e => h (by rw [← e]; exact List.mem_cons_self c t)
    have ht : '\n' ∉ t := fun m => h (List.mem_cons_of_mem _ m)
    simp [splitNL, hc, ih ht]

theorem not_mem_of_noNL {s : String} (h : noNL s = true) : '\n' ∉ s.toList := by
  intro m
  have := List.all_eq_true.mp h '\n' m
  simp at this

theorem linesOf_pyJoinNL : ∀ L : List String, L ≠ [] → (∀ s ∈ L, noNL s = true) →
    linesOf (pyJoinNL L) = L := by
  intro L
  induction L with
  | nil => intro h; cases h rfl
  | cons x L2 ih =>
    intro _ hall
    have hx : '\n' ∉ x.toList := not_mem_of_noNL (hall x (List.mem_cons_self _ _))
    cases L2 with
    | nil =>
      show linesOf (pyJoinNL [x]) = [x]
      have hx2 : '\n' ∉ x.data := hx
      have hmk : String.mk x.data = x := rfl
      simp [linesOf, pyJoinNL, splitNL_no_nl hx2, splitNL_no_nl hx, hmk, mk_toList]
    | cons y r =>
      have hrest := ih (List.cons_ne_nil y r)
        (fun s hs => hall s (List.mem_cons_of_mem _ hs))
      show linesOf (x ++ "\n" ++ pyJoinNL (y :: r)) = x :: y :: r
      simp only [linesOf, toList_append]
      rw [show ("\n" : String).toList = ['\n'] from rfl, List.append_assoc,
        List.singleton_append, splitNL_append hx]
      simp only [List.map_cons, mk_toList]
      rw [show (splitNL (pyJoinNL (y :: r)).toList).map String.mk
            = linesOf (pyJoinNL (y :: r)) from rfl, hrest]

theorem noNL_append (a b : String) : noNL (a ++ b) = (noNL a && noNL b) := by
  simp [noNL, toList_append, List.all_append]

theorem sectionLines_noNL {e : ContentRecord} (he : recordNLFree e = true) :
    ∀ s ∈ "" :: sectionLines e, noNL s = true := by
  simp only [recordNLFree, Bool.and_eq_true] at he
  obtain ⟨⟨⟨⟨⟨⟨h1, h2⟩, h3⟩, h4⟩, h5⟩, h6⟩, h7⟩ := he
  intro s hs
  rcases List.mem_cons.mp hs with rfl | hs2
  · rfl
  · rcases List.mem_cons.mp hs2 with rfl | hs3
    · rw [noNL_append, noNL_append]
      simp only [Bool.and_eq_true, h1]
      exact ⟨⟨rfl, trivial⟩, rfl⟩
    · rcases entry_fields_cases e s hs3 with h | h | h | h | h | h <;> subst h <;>
        rw [noNL_append] <;>
        simp only [Bool.and_eq_true, h2, h3, h4, h5, h6, h7, and_true] <;> rfl

/-- Claim C7 (amended): the formatter yields the empty string on no
records; its output is the newline-join of one blank line followed by the
section lines of each record in input order; the `[`-prefixed lines among
those are exactly one section header per record in input order; and for
newline-free records the lines of the output are exactly that line list
(so consecutive sections are separated by exactly one blank line).  (As
stated the claim fails when a field value itself contains a newline
followed by `[`.) -/
theorem formatter_sections (db : List ContentRecord) :
    generate_ini_format ([] : List ContentRecord) = "" ∧
    generate_ini_format db = pyJoinNL (db.flatMap (fun e => "" :: sectionLines e)) ∧
    (db.flatMap (fun e => "" :: sectionLines e)).filter headerLike =
      db.map (fun e => "[" ++ e.unique_title ++ "]") ∧
    (db ≠ [] → db.all recordNLFree = true →
      linesOf (generate_ini_format db) = db.flatMap (fun e => "" :: sectionLines e)) := by
  refine ⟨rfl, generate_eq_sections db, sections_filter_header db, ?_⟩
  intro hne hfree
  rw [generate_eq_sections db]
  apply linesOf_pyJoinNL
  · cases db with
    | nil => cases hne rfl
    | cons e rest => simp [List.flatMap_cons]
  · intro s hs
    obtain ⟨e, he, hse⟩ := List.mem_flatMap.mp hs
    exact sectionLines_noNL (List.all_eq_true.mp hfree e he) s hse

/-- Witness for C7 on two concrete newline-free records. -/
theorem formatter_sections_witness :
    linesOf (generate_ini_format wDbC7) = wDbC7.flatMap (fun e => "" :: sectionLines e) :=
  (formatter_sections wDbC7).2.2.2 (by decide) (by decide)

/-- Counterexample to C7 as stated: one record whose `itemTitle` contains
`"\n["` produces two `[`-prefixed lines, not one. -/
theorem formatter_sections_counterexample :
    [cexRecC7].length = 1 ∧
    ((linesOf (generate_ini_format [cexRecC7])).filter headerLike).length = 2 :=
  ⟨rfl, by decide⟩

/-- Claim C10: for a non-empty record list the output begins with a newline
character, so a blank line also precedes the first section header. -/
theorem output_leading_blank (e : ContentRecord) (db : List ContentRecord) :
    (generate_ini_format (e :: db)).toList.head? = some '\n' ∧
    (linesOf (generate_ini_format (e :: db))).head? = some "" := by
  obtain ⟨r, hr⟩ : ∃ r, (generate_ini_format (e :: db)).toList = '\n' :: r := by
    have hsplit : ∃ v, (pyJoinNL (entryLines e ++ db.flatMap entryLines)).toList =
        ("\n[" ++ e.unique_title ++ "]").toList ++ v := by
      cases hfm : entry_fields e ++ db.flatMap entryLines with
      | nil => exact absurd hfm (by simp [entry_fields])
      | cons z zs =>
        refine ⟨'\n' :: (pyJoinNL (z :: zs)).toList, ?_⟩
        show (pyJoinNL (("\n[" ++ e.unique_title ++ "]") :: (entry_fields e ++ db.flatMap entryLines))).toList = _
        rw [hfm]
        show ((("\n[" ++ e.unique_title ++ "]") ++ "\n") ++ pyJoinNL (z :: zs)).toList = _
        rw [toList_append, toList_append]
        simp
    obtain ⟨v, hv⟩ := hsplit
    refine ⟨('[' :: e.unique_title.toList ++ [']']) ++ v, ?_⟩
    show (pyJoinNL ((e :: db).flatMap entryLines)).toList = _
    rw [List.flatMap_cons]
    show (pyJoinNL (entryLines e ++ db.flatMap entryLines)).toList = _
    rw [hv, toList_append, toList_append]
    simp
  constructor
  · rw [hr]
    rfl
  · simp only [linesOf, hr, splitNL]
    rfl

end X360
